import Mathlib

/-!
# Verification of the botech image scraper against its specification

Shallow embedding of `src/scrape-botech.js` (variant A) and
`src/unnamed/part_001` (variant B), the two copies of the scraper.
Platform capabilities (the WHATWG URL parser, the HTTP transport, the
HTML extractor, the filesystem and the `sanitize-filename` library) are
modelled explicitly, either as function parameters or as small concrete
models derived from how the specification describes the capability.
-/

set_option autoImplicit false

namespace Scraper

/-! ## Configuration constants (from the source) -/

def BASE_URL : String := "https://www.botech.ma/"

def ORIGIN : String := "https://www.botech.ma"

def MAX_RETRIES : Nat := 3

def RETRY_DELAY_MS : Nat := 1200

def OUTPUT_DIR : String := "botech_images"

/-! ## URL normalizer (`toAbs`, both variants)

`toAbs` in variant A:
```js
const toAbs = (url) => {
  if (!url) return null;
  if (/^https?:\/\//i.test(url)) return url;
  return new URL(url.replace(/^\.?\//, ""), BASE_URL).href;
};
```
`toAbs` in variant B:
```js
function toAbs(url) {
  if (!url) return null;
  if (url.startsWith("http://") || url.startsWith("https://")) return url;
  if (url.startsWith("/")) return new URL(url, BASE).href;
  return BASE + url.replace(/^\.?\//, "");
}
```
The platform call `new URL(input, BASE_URL).href` is a capability; the
embeddings take it as a function parameter `resolve`, and a concrete
model `urlResolve` is provided for closed evaluations.
-/

/-! ### String primitives

The JavaScript string operations used by the scraper, embedded as
functions on the character lists underlying Lean strings (so that every
definition evaluates by kernel reduction on concrete inputs). -/

/-- JavaScript `s.startsWith(pre)`. -/
def strStartsWith (s pre : String) : Bool :=
  pre.data.isPrefixOf s.data

/-- JavaScript `s.toLowerCase()` (ASCII case mapping, which is all the patterns of
the scraper need). -/
def strToLower (s : String) : String :=
  String.mk (s.data.map Char.toLower)

/-- JavaScript `s.slice(n)` / dropping the first `n` characters. -/
def strDrop (s : String) (n : Nat) : String :=
  String.mk (s.data.drop n)

/-- JavaScript `s.slice(0, n)` / keeping the first `n` characters. -/
def strTake (s : String) (n : Nat) : String :=
  String.mk (s.data.take n)

/-- JavaScript `s.includes(c)` for a single character `c`. -/
def strContains (s : String) (c : Char) : Bool :=
  s.data.contains c

/-- The test `/^https?:\/\//i.test(url)` of variant A: a case-insensitive
check for a leading `http://` or `https://`. -/
def schemeCI (s : String) : Bool :=
  strStartsWith (strToLower s) "http://" || strStartsWith (strToLower s) "https://"

/-- The one-shot replacement `url.replace(/^\.?\//, "")`: an optional dot
followed by a slash is removed from the front of the string (so a leading
`./` loses both characters, a leading `/` loses one, anything else is
untouched). -/
def stripLeadingDotSlash (s : String) : String :=
  if strStartsWith s "./" then strDrop s 2
  else if strStartsWith s "/" then strDrop s 1
  else s

/-- Modelled from the spec: the platform URL resolution capability
`new URL(input, BASE_URL).href`, restricted to plain path inputs — a
path-absolute input is attached to the origin, any other input is
attached to the origin root.  (No dot-segment normalization,
percent-encoding, protocol-relative or exotic-scheme handling.) -/
def urlResolve (s : String) : String :=
  if strStartsWith s "/" then ORIGIN ++ s else BASE_URL ++ s

/-- The function `toAbs` of variant A (`src/scrape-botech.js`), parameterized by the
URL-resolution capability `resolve`.  The input is an `Option String`
(`none` models `null`/`undefined`), and the JavaScript falsiness test
`!url` also sends the empty string to `null`. -/
def toAbs (resolve : String → String) (url : Option String) : Option String :=
  match url with
  | none => none
  | some u =>
    if u = "" then none
    else if schemeCI u then some u
    else some (resolve (stripLeadingDotSlash u))

/-- The function `toAbs` of variant B (`src/unnamed/part_001`), parameterized by the
URL-resolution capability used in its slash branch. -/
def toAbsB (resolve : String → String) (url : Option String) : Option String :=
  match url with
  | none => none
  | some u =>
    if u = "" then none
    else if strStartsWith u "http://" || strStartsWith u "https://" then some u
    else if strStartsWith u "/" then some (resolve u)
    else some (BASE_URL ++ stripLeadingDotSlash u)

/-- The URL normalizer exactly as the specification words it
(spec §4.1 / claim C3): null/empty input yields null; an input already
carrying an `http://`/`https://` scheme is returned unchanged; an input
beginning with `/` is resolved against the origin as it stands; any
other input is a path segment relative to the origin root with a
leading `./` stripped. -/
def toAbsoluteSpec (resolve : String → String) (url : Option String) : Option String :=
  match url with
  | none => none
  | some u =>
    if u = "" then none
    else if schemeCI u then some u
    else if strStartsWith u "/" then some (resolve u)
    else some (resolve (stripLeadingDotSlash u))

/-- The function `toAbs` of variant A with the platform parser modelled as fallible:
`resolve` returns `none` on input the WHATWG parser rejects, and since
the source has no `try`/`catch` around `new URL`, that failure
propagates as an exception (`Except.error ()`) instead of becoming a
`null` result. -/
def toAbsE (resolve : String → Option String) (url : Option String) :
    Except Unit (Option String) :=
  match url with
  | none => .ok none
  | some u =>
    if u = "" then .ok none
    else if schemeCI u then .ok (some u)
    else
      match resolve (stripLeadingDotSlash u) with
      | some r => .ok (some r)
      | none => .error ()

/-- Modelled from the spec: a fallible view of the platform URL parser —
it behaves like `urlResolve` except that a protocol-relative input whose
authority contains a space (a forbidden host code point, on which
`new URL` throws) is rejected. -/
def urlResolveFallible (s : String) : Option String :=
  if strStartsWith s "//" && strContains (String.mk ((strDrop s 2).data.takeWhile (fun c => c ≠ '/'))) ' ' then
    none
  else
    some (urlResolve s)

/-! ## Retrying fetcher (`fetchWithRetry`)

```js
async function fetchWithRetry(url, opts = {}, attempt = 1) {
  try {
    return await client.get(url, opts);
  } catch (e) {
    if (attempt >= MAX_RETRIES) throw e;
    await sleep(RETRY_DELAY_MS * attempt);
    return fetchWithRetry(url, opts, attempt + 1);
  }
}
```
The HTTP transport is a capability `net : Nat → Except String String`
giving the outcome of the GET performed on each attempt number.  The
embedding returns the final outcome together with the list of backoff
sleeps performed (in ms) and the list of attempt numbers on which a GET
was actually issued. -/

/-- The recursion of `fetchWithRetry` from a given attempt number. -/
def fetchGo (net : Nat → Except String String) (attempt : Nat) :
    Except String String × List Nat × List Nat :=
  match net attempt with
  | .ok r => (.ok r, [], [attempt])
  | .error e =>
    if _h : MAX_RETRIES ≤ attempt then
      (.error e, [], [attempt])
    else
      let rest := fetchGo net (attempt + 1)
      (rest.1, RETRY_DELAY_MS * attempt :: rest.2.1, attempt :: rest.2.2)
termination_by MAX_RETRIES - attempt
decreasing_by simp only [MAX_RETRIES] at *; omega

/-- The call `fetchWithRetry(url, opts)` starts at attempt 1. -/
def fetchWithRetry (net : Nat → Except String String) :
    Except String String × List Nat × List Nat :=
  fetchGo net 1

/-- The value returned (or the error thrown) by `fetchWithRetry`. -/
def fetchResult (net : Nat → Except String String) : Except String String :=
  (fetchWithRetry net).1

/-- The backoff sleeps (in ms) performed by `fetchWithRetry`. -/
def fetchSleeps (net : Nat → Except String String) : List Nat :=
  (fetchWithRetry net).2.1

/-- The attempt numbers on which `fetchWithRetry` issued a GET. -/
def fetchAttempts (net : Nat → Except String String) : List Nat :=
  (fetchWithRetry net).2.2

/-! ## De-duplication (`uniq`)

Variant A: `const uniq = (arr) => [...new Set(arr)];`
Variant B spells the same first-occurrence filter out as a loop over the
array with a `seen` set; the embedding follows variant B, which is also
the insertion-order semantics of the variant-A `Set`. -/

/-- The loop of `uniq` with its `seen` accumulator. -/
def uniqGo (seen : List String) : List String → List String
  | [] => []
  | x :: xs => if x ∈ seen then uniqGo seen xs else x :: uniqGo (x :: seen) xs

/-- JavaScript `uniq(arr)`: duplicates removed, first occurrences kept in order. -/
def uniq (l : List String) : List String :=
  uniqGo [] l

/-! ## Product-page fan-out and the final image set (`scrapeCategory`, steps 3 and 4)

Each product link is fetched through `fetchWithRetry`; a worker whose
fetch still fails after all retries logs the error and produces the
empty string as that product body (`catch` → `return ""`).  The final
image set is `uniq([...catThumbs, ...productPages.flatMap(extractProductImages)])`.
The HTML extractor over a body is a capability `String → List String`. -/

/-- The body a single product-link worker hands on: the fetched data on
success, the empty string when `fetchWithRetry` exhausted its retries. -/
def pageOf (net : Nat → Except String String) : String :=
  match fetchResult net with
  | .ok body => body
  | .error _ => ""

/-- The bodies of all product pages, one per link, in link order.
`net u` is the per-attempt transport outcome for the link `u`. -/
def productPages (net : String → Nat → Except String String)
    (links : List String) : List String :=
  links.map (fun u => pageOf (net u))

/-- The set `allImages`: category thumbnails unioned with every extracted
product image, de-duplicated by exact URL string. -/
def allImages (extractProductImages : String → List String)
    (catThumbs : List String) (pages : List String) : List String :=
  uniq (catThumbs ++ pages.flatMap extractProductImages)

/-! ## Filename derivation and the download phase (`scrapeCategory`, step 5)

```js
const limitDl = pLimit(DOWNLOAD_CONCURRENCY);
let index = 1;
await Promise.all(
  allImages.map((imgUrl) =>
    limitDl(async () => {
      const ext = extFromUrl(imgUrl);
      const urlName = safeFileName(path.basename(imgUrl.split("?")[0]));
      const fileName = urlName.includes(".")
        ? urlName
        : `${safeFileName(categoryName)}_${String(index++).padStart(3, "0")}${ext}`;
      const dest = path.join(folder, fileName);
      if (!(await fs.pathExists(dest))) {
        await downloadFile(imgUrl, dest);
      }
    })
  )
);
```
The embedding serializes the workers in input order (the filename
computation up to `index++` is synchronous inside each worker, and the
workers are submitted to the pool in input order).  The filesystem is a
capability `fsExists : String → Bool`. -/

/-- JavaScript `u.split("?")[0]`: the part of the string before the first `?`. -/
def queryStrip (u : String) : String :=
  String.mk (u.data.takeWhile (fun c => c ≠ '?'))

/-- Modelled from the spec: the platform `path.basename` capability,
restricted to paths without trailing separators — the part after the
last `/`. -/
def pathBasename (p : String) : String :=
  String.mk ((p.data.reverse.takeWhile (fun c => c ≠ '/')).reverse)

/-- A character the `sanitize-filename` model removes: a control
character or one of the characters illegal in filenames. -/
def badFileChar (c : Char) : Bool :=
  decide (c.toNat < 32) || c == '/' || c == '\\' || c == '?' || c == '<' ||
    c == '>' || c == ':' || c == '*' || c == '|' || c == '"'

/-- Modelled from the spec: the `sanitize-filename` library capability —
strips characters unsafe for filenames, keeping everything else. -/
def sanitizeName (s : String) : String :=
  String.mk (s.data.filter (fun c => !badFileChar c))

/-- The whitespace class of the `/\s+/` regex (restricted to the common
ASCII whitespace characters). -/
def isWsChar (c : Char) : Bool :=
  c == ' ' || c == '\t' || c == '\n' || c == '\r' || c == '\x0b' || c == '\x0c'

/-- The loop of `.replace(/\s+/g, "_")`: each maximal whitespace run
becomes a single underscore.  `prevWs` records whether the previous
character belonged to a run already replaced. -/
def collapseWsGo (prevWs : Bool) : List Char → List Char
  | [] => []
  | c :: rest =>
    if isWsChar c then
      if prevWs then collapseWsGo true rest
      else '_' :: collapseWsGo true rest
    else c :: collapseWsGo false rest

/-- JavaScript `name.replace(/\s+/g, "_")` over the characters of a string. -/
def collapseWs (l : List Char) : List Char :=
  collapseWsGo false l

/-- The derivation `safeFileName(name) = sanitize(name).replace(/\s+/g, "_").slice(0, 150)`. -/
def safeFileName (name : String) : String :=
  strTake (String.mk (collapseWs (sanitizeName name).data)) 150

/-- JavaScript `s.endsWith(post)`. -/
def strEndsWith (s post : String) : Bool :=
  post.data.isSuffixOf s.data

/-- JavaScript `extFromUrl(u)`: the matched image extension of the query-stripped
URL, lowercased (`match[0].toLowerCase()` of `/\.(jpe?g|png|webp)$/i`),
defaulting to `.jpg`. -/
def extFromUrl (u : String) : String :=
  let lc := strToLower (queryStrip u)
  if strEndsWith lc ".jpeg" then ".jpeg"
  else if strEndsWith lc ".jpg" then ".jpg"
  else if strEndsWith lc ".png" then ".png"
  else if strEndsWith lc ".webp" then ".webp"
  else ".jpg"

/-- Decimal digits of `n`, least significant first, by repeated division
(`fuel` only bounds the recursion; `n + 1` is always enough). -/
def digitsRevFuel : Nat → Nat → List Char
  | 0, _ => []
  | fuel + 1, n =>
    if n < 10 then [Nat.digitChar n]
    else Nat.digitChar (n % 10) :: digitsRevFuel fuel (n / 10)

/-- JavaScript `String(n)`: the decimal numeral of `n`. -/
def numStr (n : Nat) : String :=
  String.mk ((digitsRevFuel (n + 1) n).reverse)

/-- JavaScript `String(n).padStart(3, "0")`. -/
def padStart3 (n : Nat) : String :=
  String.mk (List.replicate (3 - (numStr n).length) '0' ++ (numStr n).data)

/-- One download target: the source URL, the derived filename, the full
destination path, whether the synthetic-sequence fallback produced the
name, and the counter value current when the name was derived. -/
structure Target where
  url : String
  fileName : String
  dest : String
  synthetic : Bool
  seq : Nat
deriving DecidableEq

/-- The path `path.join(OUTPUT_DIR, safeFileName(categoryName))`. -/
def categoryFolder (categoryName : String) : String :=
  OUTPUT_DIR ++ "/" ++ safeFileName categoryName

/-- The synchronous head of one download worker: derive the filename and
destination path for `imgUrl`, returning the target and the updated
counter (`index++` fires exactly when the synthetic branch is taken). -/
def targetOf (categoryName : String) (idx : Nat) (imgUrl : String) : Target × Nat :=
  let ext := extFromUrl imgUrl
  let urlName := safeFileName (pathBasename (queryStrip imgUrl))
  if strContains urlName '.' then
    ({ url := imgUrl, fileName := urlName,
       dest := categoryFolder categoryName ++ "/" ++ urlName,
       synthetic := false, seq := idx }, idx)
  else
    ({ url := imgUrl,
       fileName := safeFileName categoryName ++ "_" ++ padStart3 idx ++ ext,
       dest := categoryFolder categoryName ++ "/" ++
         (safeFileName categoryName ++ "_" ++ padStart3 idx ++ ext),
       synthetic := true, seq := idx }, idx + 1)

/-- The download targets derived for an image list, threading the
synthetic-name counter (the source starts it at 1). -/
def destPlan (categoryName : String) (idx : Nat) : List String → List Target
  | [] => []
  | img :: rest =>
    (targetOf categoryName idx img).1 ::
      destPlan categoryName (targetOf categoryName idx img).2 rest

/-- The download phase: for each image derive the destination, consult
the filesystem, and call `downloadFile` (a network fetch) exactly when
the destination does not already exist.  Returns the URLs actually
fetched. -/
def downloadLoop (fsExists : String → Bool) (categoryName : String) (idx : Nat) :
    List String → List String
  | [] => []
  | img :: rest =>
    if fsExists (targetOf categoryName idx img).1.dest then
      downloadLoop fsExists categoryName (targetOf categoryName idx img).2 rest
    else
      (targetOf categoryName idx img).1.url ::
        downloadLoop fsExists categoryName (targetOf categoryName idx img).2 rest

/-! ## Run driver (`main`)

```js
for (const [name, rel] of Object.entries(CATEGORIES)) {
  try {
    await scrapeCategory(name, rel);
  } catch (e) {
    console.error(`[ERROR] Category "${name}" failed:`, e.message);
  }
}
```
`runCat` is the per-category orchestrator outcome (an `Except`
capability: `error` models `scrapeCategory` rejecting, e.g. an abort at
the category-listing fetch).  The driver records one attempt per
category; an `error` is logged and the loop continues. -/

/-- The `main` loop over the category table, returning the attempt log. -/
def runCategories (runCat : String → String → Except String Unit) :
    List (String × String) → List (String × Except String Unit)
  | [] => []
  | (name, rel) :: rest => (name, runCat name rel) :: runCategories runCat rest

/-! ## Concurrency-bounded pipeline (`pLimit` + `Promise.all`)

The async fan-out `Promise.all(items.map((x, i) => limit(() => worker(x))))`
is modelled as a transition system: a scheduler may start any not-yet-
started task while fewer than `limit` are in flight, and may complete
any in-flight task, writing the worker result into the slot of that
task.  Completion order is entirely nondeterministic; the claim is that
any completed run leaves slot `i` holding the worker result for item
`i`. -/

/-- The scheduler state: tasks not yet started, tasks in flight, and the
result slots (`Promise.all` array). -/
structure PoolState (n : Nat) (β : Type) where
  pending : List (Fin n)
  running : List (Fin n)
  results : Fin n → Option β

/-- The initial state: every task pending, nothing started. -/
def initPool (n : Nat) (β : Type) : PoolState n β :=
  { pending := List.finRange n, running := [], results := fun _ => none }

/-- One scheduler transition of the `pLimit`-bounded pipeline. -/
inductive PoolStep {n : Nat} {α β : Type} (items : Fin n → α) (worker : α → β)
    (limit : Nat) : PoolState n β → PoolState n β → Prop
  | start (s : PoolState n β) (i : Fin n) :
      i ∈ s.pending → s.running.length < limit →
      PoolStep items worker limit s
        { pending := s.pending.erase i, running := i :: s.running,
          results := s.results }
  | finish (s : PoolState n β) (i : Fin n) :
      i ∈ s.running →
      PoolStep items worker limit s
        { pending := s.pending, running := s.running.erase i,
          results := Function.update s.results i (some (worker (items i))) }

/-- States the scheduler can reach from the initial state. -/
def PoolReachable {n : Nat} {α β : Type} (items : Fin n → α) (worker : α → β)
    (limit : Nat) (s : PoolState n β) : Prop :=
  Relation.ReflTransGen (PoolStep items worker limit) (initPool n β) s

/-- A sample item table for exercising the pipeline model. -/
def demoItems : Fin 1 → String := fun _ => "body"

/-- The state the two-step schedule start-then-finish reaches on
`demoItems` with limit 1. -/
def demoFinal : PoolState 1 String :=
  { pending := (List.finRange 1).erase ⟨0, Nat.one_pos⟩,
    running := ((⟨0, Nat.one_pos⟩ : Fin 1) :: []).erase ⟨0, Nat.one_pos⟩,
    results := Function.update (fun _ => none) ⟨0, Nat.one_pos⟩ (some "body") }

/-- The numeric value of a decimal digit character (used to reason about
numeral injectivity). -/
def charVal (c : Char) : Nat := c.toNat - 48

/-- Value of a little-endian list of digit characters. -/
def valLE (l : List Char) : Nat :=
  l.foldr (fun c acc => 10 * acc + charVal c) 0

/-- Value of a big-endian list of digit characters (leading zeros do not
change it). -/
def valBE (l : List Char) : Nat :=
  l.foldl (fun acc c => 10 * acc + charVal c) 0

/-! # Theorems -/

/-! ## Shared helper lemmas -/

theorem strAppend_data (a b : String) : (a ++ b).data = a.data ++ b.data := rfl

theorem strExt {a b : String} (h : a.data = b.data) : a = b :=
  congrArg String.mk h

theorem mem_uniqGo (x : String) :
    ∀ (l : List String) (seen : List String),
      x ∈ uniqGo seen l ↔ x ∈ l ∧ x ∉ seen := by
  intro l
  induction l with
  | nil => intro seen; simp [uniqGo]
  | cons y ys ih =>
    intro seen
    by_cases hy : y ∈ seen
    · rw [uniqGo, if_pos hy, ih]
      constructor
      · rintro ⟨hx, hs⟩
        exact ⟨List.mem_cons_of_mem _ hx, hs⟩
      · rintro ⟨hxy, hs⟩
        rcases List.mem_cons.mp hxy with rfl | hx
        · exact absurd hy hs
        · exact ⟨hx, hs⟩
    · rw [uniqGo, if_neg hy]
      constructor
      · intro hx
        rcases List.mem_cons.mp hx with rfl | hx
        · exact ⟨List.mem_cons_self x ys, hy⟩
        · obtain ⟨h1, h2⟩ := (ih (y :: seen)).mp hx
          exact ⟨List.mem_cons_of_mem _ h1, fun hc => h2 (List.mem_cons_of_mem _ hc)⟩
      · rintro ⟨hxy, hs⟩
        by_cases hx2 : x = y
        · exact List.mem_cons.mpr (Or.inl hx2)
        · rcases List.mem_cons.mp hxy with rfl | hx
          · exact List.mem_cons.mpr (Or.inl rfl)
          · refine List.mem_cons.mpr (Or.inr ((ih (y :: seen)).mpr ⟨hx, fun hc => ?_⟩))
            rcases List.mem_cons.mp hc with rfl | hc
            · exact hx2 rfl
            · exact hs hc

theorem mem_uniq (x : String) (l : List String) : x ∈ uniq l ↔ x ∈ l := by
  rw [uniq, mem_uniqGo]
  simp

theorem uniqGo_nodup :
    ∀ (l : List String) (seen : List String), (uniqGo seen l).Nodup := by
  intro l
  induction l with
  | nil => intro seen; simp [uniqGo]
  | cons y ys ih =>
    intro seen
    by_cases hy : y ∈ seen
    · rw [uniqGo, if_pos hy]
      exact ih seen
    · rw [uniqGo, if_neg hy]
      refine List.nodup_cons.mpr ⟨fun hc => ?_, ih (y :: seen)⟩
      exact ((mem_uniqGo y ys (y :: seen)).mp hc).2 (List.mem_cons_self y seen)

theorem uniq_nodup (l : List String) : (uniq l).Nodup :=
  uniqGo_nodup l []

/-! ## C8 — the final image set has no duplicates -/

/-- C8: for every category run, the final image set passed to the
download phase contains no duplicate URLs, and it holds exactly the
URLs appearing among the category thumbnails or in some product page
extraction — so a URL occurring both as a thumbnail and as a product
image (or in several product pages) occurs exactly once. -/
theorem allImages_nodup_and_complete
    (extractProductImages : String → List String)
    (thumbs pages : List String) :
    (allImages extractProductImages thumbs pages).Nodup ∧
      ∀ u, u ∈ allImages extractProductImages thumbs pages ↔
        u ∈ thumbs ∨ ∃ p ∈ pages, u ∈ extractProductImages p := by
  constructor
  · exact uniq_nodup _
  · intro u
    rw [allImages, mem_uniq, List.mem_append, List.mem_flatMap]

/-! ## C7 — the run driver isolates per-category failures -/

/-- C7: the `main` loop attempts every category of the table once, in
table order, and records the outcome of each attempt; a category whose
orchestrator rejects is logged as a caught error and does not prevent
any later category from being attempted — the driver is a total
function of the attempts, with no partial-failure exit
differentiation. -/
theorem runCategories_attempts_all
    (runCat : String → String → Except String Unit)
    (cats : List (String × String)) :
    (runCategories runCat cats).map Prod.fst = cats.map Prod.fst ∧
      ∀ p ∈ cats, (p.1, runCat p.1 p.2) ∈ runCategories runCat cats := by
  induction cats with
  | nil => exact ⟨rfl, by intro p hp; cases hp⟩
  | cons c rest ih =>
    obtain ⟨name, rel⟩ := c
    refine ⟨?_, ?_⟩
    · simpa [runCategories] using ih.1
    · intro p hp
      rcases List.mem_cons.mp hp with rfl | hp
      · exact List.mem_cons_self _ _
      · exact List.mem_cons_of_mem _ (ih.2 p hp)

/-- Evaluation of C7 on a concrete two-category table whose first
category fails: both categories are still attempted in order. -/
theorem runCategories_attempts_all_witness :
    ("B", Except.ok ()) ∈
      runCategories
        (fun n _ => if n = "A" then Except.error "boom" else Except.ok ())
        [("A", "cat/a"), ("B", "cat/b")] :=
  (runCategories_attempts_all
    (fun n _ => if n = "A" then Except.error "boom" else Except.ok ())
    [("A", "cat/a"), ("B", "cat/b")]).2 ("B", "cat/b") (by decide)

/-! ## C1 — re-running a completed download phase fetches nothing -/

theorem downloadLoop_nil_of_all_exist
    (fsExists : String → Bool) (categoryName : String) :
    ∀ (images : List String) (idx : Nat),
      (∀ t ∈ destPlan categoryName idx images, fsExists t.dest = true) →
      downloadLoop fsExists categoryName idx images = [] := by
  intro images
  induction images with
  | nil => intro idx _; rfl
  | cons img rest ih =>
    intro idx hall
    have hhead : fsExists (targetOf categoryName idx img).1.dest = true :=
      hall _ (List.mem_cons_self _ _)
    rw [downloadLoop, if_pos hhead]
    exact ih _ (fun t ht => hall t (List.mem_cons_of_mem _ ht))

/-- C1: for a category whose output directory already contains every
destination file computed (deterministically, by the same filename
derivation) for the final image set, re-running the download phase
performs zero network fetches: each destination is recomputed, its
existence is checked before any transfer, and every existing file makes
the download worker skip `downloadFile` entirely. -/
theorem download_phase_idempotent
    (fsExists : String → Bool) (categoryName : String) (images : List String)
    (hall : ∀ t ∈ destPlan categoryName 1 images, fsExists t.dest = true) :
    downloadLoop fsExists categoryName 1 images = [] :=
  downloadLoop_nil_of_all_exist fsExists categoryName images 1 hall

/-- Evaluation of C1 on a concrete category whose single target file is
already on disk: the download phase issues no fetch. -/
theorem download_phase_idempotent_witness :
    downloadLoop (fun d => d == "botech_images/Berceaux/x.jpg") "Berceaux" 1
      ["https://www.botech.ma/images/produits/a/x.jpg"] = [] :=
  download_phase_idempotent
    (fun d => d == "botech_images/Berceaux/x.jpg") "Berceaux"
    ["https://www.botech.ma/images/produits/a/x.jpg"] (by decide)

/-! ## C6 — one failed product fetch does not poison the others -/

/-- C6: in the product fan-out, the body list is index-aligned with the
link list and each entry depends only on the transport outcomes for its
own link; a link whose fetch fails on all retry attempts contributes the
empty body and hence an empty extraction result, while every image
extracted from a successfully fetched product body is included in the
final image set. -/
theorem product_fetch_failure_isolated
    (net : String → Nat → Except String String) (links : List String)
    (extractProductImages : String → List String) (thumbs : List String)
    (hempty : extractProductImages "" = []) :
    (productPages net links).length = links.length ∧
      (∀ (i : Nat) (h1 : i < links.length) (h2 : i < (productPages net links).length),
        (productPages net links).get ⟨i, h2⟩ = pageOf (net (links.get ⟨i, h1⟩))) ∧
      (∀ u e, fetchResult (net u) = Except.error e →
        pageOf (net u) = "" ∧ extractProductImages (pageOf (net u)) = []) ∧
      (∀ u b, u ∈ links → fetchResult (net u) = Except.ok b →
        ∀ img ∈ extractProductImages b,
          img ∈ allImages extractProductImages thumbs (productPages net links)) := by
  refine ⟨List.length_map _ _, ?_, ?_, ?_⟩
  · intro i h1 h2
    simp [productPages, List.get_eq_getElem, List.getElem_map]
  · intro u e he
    have hp : pageOf (net u) = "" := by rw [pageOf, he]
    exact ⟨hp, by rw [hp, hempty]⟩
  · intro u b hu hb img himg
    have hpage : pageOf (net u) = b := by rw [pageOf, hb]
    have hmem : b ∈ productPages net links := by
      rw [← hpage]
      exact List.mem_map_of_mem _ hu
    rw [allImages, mem_uniq, List.mem_append, List.mem_flatMap]
    exact Or.inr ⟨b, hmem, himg⟩

/-- Evaluation of C6 on three product links whose second always fails:
the image extracted from the third product is still in the final set. -/
theorem product_fetch_failure_isolated_witness :
    "img3" ∈ allImages
      (fun body => if body = "<html u3>" then ["img3"] else [])
      []
      (productPages
        (fun u _ => if u = "u2" then Except.error "down"
          else Except.ok ("<html " ++ u ++ ">"))
        ["u1", "u2", "u3"]) :=
  (product_fetch_failure_isolated
    (fun u _ => if u = "u2" then Except.error "down"
      else Except.ok ("<html " ++ u ++ ">"))
    ["u1", "u2", "u3"]
    (fun body => if body = "<html u3>" then ["img3"] else [])
    [] (by decide)).2.2.2 "u3" "<html u3>" (by decide)
    (by simp [fetchResult, fetchWithRetry, fetchGo]) "img3" (by decide)

/-! ## C5 — retry policy of the fetcher -/

/-- C5: for every transport behavior, `fetchWithRetry` issues at most
`MAX_RETRIES` (3) GETs, numbered consecutively from attempt 1; after
each failed attempt before the final one it sleeps
`RETRY_DELAY_MS * attemptNumber` (linear backoff) and retries; it never
issues an attempt unless every earlier attempt failed (so it never
retries after a success, and a first-attempt success means exactly one
GET); and when all three attempts fail, the error of the final attempt
is propagated to the caller. -/
theorem fetchWithRetry_policy (net : Nat → Except String String) :
    (fetchAttempts net).length ≤ MAX_RETRIES ∧
      fetchAttempts net = List.range' 1 (fetchAttempts net).length ∧
      fetchSleeps net = (fetchAttempts net).dropLast.map (fun k => RETRY_DELAY_MS * k) ∧
      (∀ r, net 1 = Except.ok r →
        fetchResult net = Except.ok r ∧ fetchAttempts net = [1]) ∧
      (∀ e1 e2 e3, net 1 = Except.error e1 → net 2 = Except.error e2 →
        net 3 = Except.error e3 →
        fetchResult net = Except.error e3 ∧ fetchAttempts net = [1, 2, 3] ∧
        fetchSleeps net = [RETRY_DELAY_MS * 1, RETRY_DELAY_MS * 2]) ∧
      (∀ k, k ∈ fetchAttempts net → ∀ j, 1 ≤ j → j < k →
        ∃ e, net j = Except.error e) := by
  cases h1 : net 1 with
  | ok r1 =>
    have hval : fetchWithRetry net = (Except.ok r1, [], [1]) := by
      simp [fetchWithRetry, fetchGo, h1]
    rw [fetchAttempts, fetchSleeps, fetchResult, hval]
    refine ⟨by show (1:Nat) ≤ MAX_RETRIES; decide, rfl, rfl, ?_, ?_, ?_⟩
    · intro r hr
      simp only [Except.ok.injEq] at hr
      subst hr
      exact ⟨rfl, rfl⟩
    · intro f1 f2 f3 hf1 hf2 hf3
      simp at hf1
    · intro k hk j hj1 hj2
      have : k = 1 := by simpa using hk
      omega
  | error e1 =>
    cases h2 : net 2 with
    | ok r2 =>
      have hval : fetchWithRetry net =
          (Except.ok r2, [RETRY_DELAY_MS * 1], [1, 2]) := by
        simp [fetchWithRetry, fetchGo, h1, h2, MAX_RETRIES]
      rw [fetchAttempts, fetchSleeps, fetchResult, hval]
      refine ⟨by show (2:Nat) ≤ MAX_RETRIES; decide, rfl, rfl, ?_, ?_, ?_⟩
      · intro r hr
        simp at hr
      · intro f1 f2 f3 hf1 hf2 hf3
        simp at hf2
      · intro k hk j hj1 hj2
        have hk2 : k = 1 ∨ k = 2 := by simpa using hk
        have : j = 1 := by omega
        exact ⟨e1, this ▸ h1⟩
    | error e2 =>
      cases h3 : net 3 with
      | ok r3 =>
        have hval : fetchWithRetry net =
            (Except.ok r3, [RETRY_DELAY_MS * 1, RETRY_DELAY_MS * 2], [1, 2, 3]) := by
          simp [fetchWithRetry, fetchGo, h1, h2, h3, MAX_RETRIES]
        rw [fetchAttempts, fetchSleeps, fetchResult, hval]
        refine ⟨by show (3:Nat) ≤ MAX_RETRIES; decide, rfl, rfl, ?_, ?_, ?_⟩
        · intro r hr
          simp at hr
        · intro f1 f2 f3 hf1 hf2 hf3
          simp at hf3
        · intro k hk j hj1 hj2
          have hk3 : k = 1 ∨ k = 2 ∨ k = 3 := by simpa using hk
          have hj : j = 1 ∨ j = 2 := by omega
          rcases hj with rfl | rfl
          · exact ⟨e1, h1⟩
          · exact ⟨e2, h2⟩
      | error e3 =>
        have hval : fetchWithRetry net =
            (Except.error e3, [RETRY_DELAY_MS * 1, RETRY_DELAY_MS * 2], [1, 2, 3]) := by
          simp [fetchWithRetry, fetchGo, h1, h2, h3, MAX_RETRIES]
        rw [fetchAttempts, fetchSleeps, fetchResult, hval]
        refine ⟨by show (3:Nat) ≤ MAX_RETRIES; decide, rfl, rfl, ?_, ?_, ?_⟩
        · intro r hr
          simp at hr
        · intro f1 f2 f3 hf1 hf2 hf3
          simp only [Except.error.injEq] at hf3
          subst hf3
          exact ⟨rfl, rfl, rfl⟩
        · intro k hk j hj1 hj2
          have hk3 : k = 1 ∨ k = 2 ∨ k = 3 := by simpa using hk
          have hj : j = 1 ∨ j = 2 := by omega
          rcases hj with rfl | rfl
          · exact ⟨e1, h1⟩
          · exact ⟨e2, h2⟩

/-- Evaluation of C5 on an always-failing transport: three GETs, two
linear-backoff sleeps, and the final error propagated. -/
theorem fetchWithRetry_policy_witness :
    fetchResult (fun _ => Except.error "down") = Except.error "down" ∧
      fetchAttempts (fun _ => Except.error "down") = [1, 2, 3] ∧
      fetchSleeps (fun _ => Except.error "down") = [1200, 2400] :=
  (fetchWithRetry_policy (fun _ => Except.error "down")).2.2.2.2.1
    "down" "down" "down" rfl rfl rfl

/-! ## C3 — the spec description of the URL normalizer -/

theorem strStartsWith_data (s p : String) :
    strStartsWith s p = p.data.isPrefixOf s.data := rfl

/-- C3 counterexample: on the protocol-relative input `//x` the code
strips the first slash before resolving, so it does not resolve the
input against the origin as the spec words it. -/
theorem toAbs_spec_divergence_on_protocol_relative :
    toAbs urlResolve (some "//x") = some "https://www.botech.ma/x" ∧
      toAbsoluteSpec urlResolve (some "//x") = some "https://www.botech.ma//x" ∧
      toAbs urlResolve (some "//x") ≠ toAbsoluteSpec urlResolve (some "//x") :=
  ⟨by decide, by decide, by decide⟩

/-- C3 (amended): the spec description of `toAbs` is accurate for every
input that does not begin with `//` — null/empty to null, a scheme-
carrying input returned unchanged, a single-leading-slash input resolved
against the origin, and any other input resolved as a path segment
against the origin root with a leading `./` stripped.  (For an input
beginning with `//`, the code first strips one slash and resolves the
remainder, instead of resolving the input as written.) -/
theorem toAbs_matches_spec_description (u : Option String)
    (hns : ∀ s, u = some s → strStartsWith s "//" = false) :
    toAbs urlResolve u = toAbsoluteSpec urlResolve u := by
  match u with
  | none => rfl
  | some s =>
    have hs := hns s rfl
    rw [toAbs, toAbsoluteSpec]
    by_cases he : s = ""
    · rw [if_pos he, if_pos he]
    · rw [if_neg he, if_neg he]
      by_cases hsc : schemeCI s
      · rw [if_pos hsc, if_pos hsc]
      · rw [if_neg hsc, if_neg hsc]
        by_cases hsl : strStartsWith s "/"
        · rw [if_pos hsl]
          obtain ⟨rest, hrest⟩ : ∃ rest, s.data = '/' :: rest := by
            rw [strStartsWith_data, List.isPrefixOf_iff_prefix] at hsl
            obtain ⟨t, ht⟩ := hsl
            exact ⟨t, ht.symm⟩
          have hnotdot : strStartsWith s "./" = false := by
            rw [strStartsWith_data]
            show (['.', '/'] : List Char).isPrefixOf s.data = false
            rw [hrest, List.isPrefixOf_cons₂]
            rw [show (('.' : Char) == '/') = false from by decide, Bool.false_and]
          have hrestslash : strStartsWith (String.mk rest) "/" = false := by
            have h2 : strStartsWith s "//" = (['/'] : List Char).isPrefixOf rest := by
              rw [strStartsWith_data]
              show (['/', '/'] : List Char).isPrefixOf s.data = _
              rw [hrest, List.isPrefixOf_cons₂]
              simp
            rw [strStartsWith_data]
            show (['/'] : List Char).isPrefixOf rest = false
            rw [← h2]
            exact hs
          have hstrip : stripLeadingDotSlash s = String.mk rest := by
            rw [stripLeadingDotSlash, hnotdot, if_neg (by simp), if_pos hsl]
            show String.mk (s.data.drop 1) = String.mk rest
            rw [hrest]
            rfl
          rw [hstrip]
          have hleft : urlResolve (String.mk rest) = BASE_URL ++ String.mk rest := by
            rw [urlResolve, hrestslash, if_neg (by simp)]
          have hright : urlResolve s = ORIGIN ++ s := by
            rw [urlResolve, if_pos hsl]
          rw [hleft, hright]
          refine congrArg some (strExt ?_)
          rw [strAppend_data, strAppend_data, hrest]
          show BASE_URL.data ++ rest = ORIGIN.data ++ ('/' :: rest)
          have : BASE_URL.data = ORIGIN.data ++ ['/'] := by decide
          rw [this, List.append_assoc]
          rfl
        · rw [if_neg hsl]

/-- Evaluation of C3 (amended) on a single-leading-slash input. -/
theorem toAbs_matches_spec_description_witness :
    toAbs urlResolve (some "/foo") = toAbsoluteSpec urlResolve (some "/foo") :=
  toAbs_matches_spec_description (some "/foo")
    (by intro s hs; cases hs; decide)

/-! ## C4 — a URL-parse failure is not turned into null -/

/-- C4 counterexample: with the fallible model of the platform parser,
the input `///a b` (whose stripped form `//a b` the parser rejects)
makes `toAbs` propagate an exception — it does not yield null. -/
theorem toAbs_raises_on_parse_failure :
    toAbsE urlResolveFallible (some "///a b") = Except.error () ∧
      urlResolveFallible (stripLeadingDotSlash "///a b") = none ∧
      toAbsE urlResolveFallible (some "///a b") ≠ Except.ok none :=
  ⟨rfl, rfl, fun h => by cases h⟩

/-- C4 (amended): `toAbs` yields null exactly for null/empty input; when
the platform URL parser fails on the stripped input of the resolving
branch, the failure propagates to the caller as an exception (there is
no catch), never as null. -/
theorem toAbsE_failure_semantics (resolve : String → Option String)
    (u : Option String) :
    (toAbsE resolve u = Except.ok none ↔ u = none ∨ u = some "") ∧
      (toAbsE resolve u = Except.error () ↔
        ∃ s, u = some s ∧ s ≠ "" ∧ schemeCI s = false ∧
          resolve (stripLeadingDotSlash s) = none) := by
  match u with
  | none => constructor <;> simp [toAbsE]
  | some s =>
    by_cases he : s = ""
    · subst he
      constructor <;> simp [toAbsE]
    · by_cases hsc : schemeCI s
      · constructor <;> simp [toAbsE, he, hsc]
      · cases hres : resolve (stripLeadingDotSlash s) with
        | some r => constructor <;> simp [toAbsE, he, hsc, hres]
        | none => constructor <;> simp [toAbsE, he, hsc, hres]

/-- Evaluation of C4 (amended): a transport whose parser always fails
turns a plain relative input into a propagated exception. -/
theorem toAbsE_failure_semantics_witness :
    toAbsE (fun _ => none) (some "x") = Except.error () :=
  ((toAbsE_failure_semantics (fun _ => none) (some "x")).2).mpr
    ⟨"x", rfl, by decide, by decide, rfl⟩

/-! ## C10 — the two copies of the URL normalizer are not extensionally equal -/

/-- C10 counterexample: on the uppercase-scheme input `HTTP://e` variant
A (case-insensitive scheme test) returns the input unchanged while
variant B (case-sensitive test) prepends the base, so the two copies
disagree. -/
theorem toAbs_variants_differ :
    toAbs urlResolve (some "HTTP://e") = some "HTTP://e" ∧
      toAbsB urlResolve (some "HTTP://e") = some "https://www.botech.ma/HTTP://e" ∧
      toAbs urlResolve (some "HTTP://e") ≠ toAbsB urlResolve (some "HTTP://e") :=
  ⟨by decide, by decide, by decide⟩

theorem schemeCI_of_case_sensitive (s : String)
    (h : strStartsWith s "http://" = true ∨ strStartsWith s "https://" = true) :
    schemeCI s = true := by
  have lower : ∀ (p : String), p.data.map Char.toLower = p.data →
      strStartsWith s p = true →
      p.data.isPrefixOf (s.data.map Char.toLower) = true := by
    intro p hp hpre
    rw [strStartsWith_data, List.isPrefixOf_iff_prefix] at hpre
    rw [ List.isPrefixOf_iff_prefix]
    have := hpre.map Char.toLower
    rwa [hp] at this
  rcases h with h | h
  · have := lower "http://" (by decide) h
    show ("http://".data.isPrefixOf (s.data.map Char.toLower) ||
      "https://".data.isPrefixOf (s.data.map Char.toLower)) = true
    rw [this, Bool.true_or]
  · have := lower "https://" (by decide) h
    show ("http://".data.isPrefixOf (s.data.map Char.toLower) ||
      "https://".data.isPrefixOf (s.data.map Char.toLower)) = true
    rw [this, Bool.or_true]

/-- C10 (amended): the two copies of `toAbs` agree on null and empty
input and on every input that starts, case-sensitively, with `http://`
or `https://` (both return it unchanged); they are not extensionally
equal in general — e.g. they differ on uppercase-scheme inputs. -/
theorem toAbs_variants_agree_on_common_branches
    (r1 r2 : String → String) (u : Option String)
    (h : u = none ∨ u = some "" ∨
      ∃ s, u = some s ∧
        (strStartsWith s "http://" = true ∨ strStartsWith s "https://" = true)) :
    toAbs r1 u = toAbsB r2 u := by
  rcases h with rfl | rfl | ⟨s, rfl, hs⟩
  · rfl
  · rfl
  · have hne : s ≠ "" := by
      rintro rfl
      rcases hs with hs | hs <;> exact absurd hs (by decide)
    rw [toAbs, toAbsB, if_neg hne, if_neg hne,
      if_pos (schemeCI_of_case_sensitive s hs)]
    rcases hs with hs | hs
    · rw [hs]
      simp
    · rw [hs]
      simp

/-- Evaluation of C10 (amended) on a lowercase-scheme input. -/
theorem toAbs_variants_agree_witness :
    toAbs urlResolve (some "http://x") = toAbsB urlResolve (some "http://x") :=
  toAbs_variants_agree_on_common_branches urlResolve urlResolve
    (some "http://x") (Or.inr (Or.inr ⟨"http://x", rfl, Or.inl (by decide)⟩))

/-! ## C9 — the bounded pipeline returns index-aligned results -/

theorem poolReachable_invariant {n : Nat} {α β : Type}
    (items : Fin n → α) (worker : α → β) (limit : Nat)
    {s : PoolState n β} (h : PoolReachable items worker limit s) :
    ∀ i, i ∈ s.pending ∨ i ∈ s.running ∨
      s.results i = some (worker (items i)) := by
  unfold PoolReachable at h
  induction h with
  | refl => intro i; exact Or.inl (List.mem_finRange i)
  | tail _ hstep ih =>
    intro i
    cases hstep with
    | start j hjp hcap =>
      rcases ih i with hp | hr | hres
      · by_cases hij : i = j
        · subst hij
          exact Or.inr (Or.inl (List.mem_cons_self _ _))
        · exact Or.inl ((List.mem_erase_of_ne hij).mpr hp)
      · exact Or.inr (Or.inl (List.mem_cons_of_mem _ hr))
      · exact Or.inr (Or.inr hres)
    | finish j hjr =>
      rcases ih i with hp | hr | hres
      · exact Or.inl hp
      · by_cases hij : i = j
        · subst hij
          exact Or.inr (Or.inr (Function.update_same _ _ _))
        · exact Or.inr (Or.inl ((List.mem_erase_of_ne hij).mpr hr))
      · by_cases hij : i = j
        · subst hij
          exact Or.inr (Or.inr (Function.update_same _ _ _))
        · refine Or.inr (Or.inr ?_)
          simp only [Function.update_noteq hij]
          exact hres

/-- C9: for every item table, worker, and concurrency limit of at least
1, every completed run of the bounded pipeline — whatever order the
scheduler chose to start and finish tasks in — leaves result slot `i`
holding exactly the worker result for item `i`. -/
theorem runBounded_index_aligned {n : Nat} {α β : Type}
    (items : Fin n → α) (worker : α → β) (limit : Nat)
    (_hlim : 1 ≤ limit) {s : PoolState n β}
    (hreach : PoolReachable items worker limit s)
    (hpend : s.pending = []) (hrun : s.running = []) (i : Fin n) :
    s.results i = some (worker (items i)) := by
  rcases poolReachable_invariant items worker limit hreach i with h | h | h
  · rw [hpend] at h
    cases h
  · rw [hrun] at h
    cases h
  · exact h

/-- Evaluation of C9 on a one-item schedule that starts and then
finishes the single task. -/
theorem runBounded_index_aligned_witness :
    demoFinal.results ⟨0, Nat.one_pos⟩ = some "body" :=
  runBounded_index_aligned demoItems (fun x => x) 1 (Nat.le_refl 1)
    (Relation.ReflTransGen.tail
      (Relation.ReflTransGen.tail Relation.ReflTransGen.refl
        (PoolStep.start (initPool 1 String) ⟨0, Nat.one_pos⟩
          (by decide) (by decide)))
      (PoolStep.finish _ ⟨0, Nat.one_pos⟩ (by decide)))
    (by decide) (by decide) ⟨0, Nat.one_pos⟩

/-! ## C2 — destination collisions -/

theorem charVal_digitChar : ∀ m, m < 10 → charVal (Nat.digitChar m) = m := by
  decide

theorem valLE_digitsRevFuel :
    ∀ (fuel n : Nat), n < fuel → valLE (digitsRevFuel fuel n) = n := by
  intro fuel
  induction fuel with
  | zero => intro n h; omega
  | succ f ih =>
    intro n h
    rw [digitsRevFuel]
    by_cases h10 : n < 10
    · rw [if_pos h10]
      show 10 * 0 + charVal (Nat.digitChar n) = n
      rw [charVal_digitChar n h10]
      omega
    · rw [if_neg h10]
      have hlt : n / 10 < n := Nat.div_lt_self (by omega) (by omega)
      have hdiv : n / 10 < f := by omega
      show 10 * valLE (digitsRevFuel f (n / 10)) + charVal (Nat.digitChar (n % 10)) = n
      rw [ih (n / 10) hdiv, charVal_digitChar _ (Nat.mod_lt _ (by omega))]
      omega

theorem valBE_numStr (n : Nat) : valBE (numStr n).data = n := by
  show valBE ((digitsRevFuel (n + 1) n).reverse) = n
  rw [valBE, List.foldl_reverse]
  exact valLE_digitsRevFuel (n + 1) n (Nat.lt_succ_self n)

theorem valBE_replicate_zero (k : Nat) (l : List Char) :
    valBE (List.replicate k '0' ++ l) = valBE l := by
  induction k with
  | zero => rfl
  | succ m ih =>
    have h0 : 10 * 0 + charVal '0' = 0 := by decide
    calc valBE (List.replicate (m + 1) '0' ++ l)
        = List.foldl (fun acc c => 10 * acc + charVal c) (10 * 0 + charVal '0')
            (List.replicate m '0' ++ l) := rfl
      _ = List.foldl (fun acc c => 10 * acc + charVal c) 0
            (List.replicate m '0' ++ l) := by rw [h0]
      _ = valBE l := ih

theorem padStart3_inj {a b : Nat} (h : padStart3 a = padStart3 b) : a = b := by
  have hval : ∀ m : Nat, valBE (padStart3 m).data = m := by
    intro m
    show valBE (List.replicate (3 - (numStr m).length) '0' ++ (numStr m).data) = m
    rw [valBE_replicate_zero]
    exact valBE_numStr m
  have hd : valBE (padStart3 a).data = valBE (padStart3 b).data := by rw [h]
  rw [hval a, hval b] at hd
  exact hd

theorem digitsRevFuel_chars :
    ∀ (fuel n : Nat), ∀ c ∈ digitsRevFuel fuel n, c ≠ '.' := by
  intro fuel
  induction fuel with
  | zero => intro n c hc; cases hc
  | succ f ih =>
    intro n c hc
    rw [digitsRevFuel] at hc
    by_cases h10 : n < 10
    · rw [if_pos h10] at hc
      have hc2 := List.mem_singleton.mp hc
      subst hc2
      exact (show ∀ m, m < 10 → Nat.digitChar m ≠ '.' from by decide) n h10
    · rw [if_neg h10] at hc
      rcases List.mem_cons.mp hc with rfl | hc
      · exact (show ∀ m, m < 10 → Nat.digitChar m ≠ '.' from by decide) _
          (Nat.mod_lt _ (by omega))
      · exact ih (n / 10) c hc

theorem padStart3_chars (a : Nat) : ∀ c ∈ (padStart3 a).data, c ≠ '.' := by
  intro c hc
  have hc2 : c ∈ List.replicate (3 - (numStr a).length) '0' ++ (numStr a).data := hc
  rcases List.mem_append.mp hc2 with h | h
  · rw [List.eq_of_mem_replicate h]
    decide
  · have h2 : c ∈ digitsRevFuel (a + 1) a := List.mem_reverse.mp h
    exact digitsRevFuel_chars _ _ c h2

theorem append_digits_dot_inj :
    ∀ (xs ys u v : List Char),
      (∀ c ∈ xs, c ≠ '.') → (∀ c ∈ ys, c ≠ '.') →
      (∃ ut, u = '.' :: ut) → (∃ vt, v = '.' :: vt) →
      xs ++ u = ys ++ v → xs = ys ∧ u = v := by
  intro xs
  induction xs with
  | nil =>
    intro ys u v _ hy hu _ h
    cases ys with
    | nil => exact ⟨rfl, h⟩
    | cons d ys2 =>
      obtain ⟨ut, rfl⟩ := hu
      simp only [List.nil_append, List.cons_append] at h
      injection h with h1 _
      exact absurd h1.symm (hy d (List.mem_cons_self d ys2))
  | cons x xs2 ih =>
    intro ys u v hx hy hu hv h
    cases ys with
    | nil =>
      obtain ⟨vt, rfl⟩ := hv
      simp only [List.nil_append, List.cons_append] at h
      injection h with h1 _
      exact absurd h1 (hx x (List.mem_cons_self x xs2))
    | cons d ys2 =>
      simp only [List.cons_append] at h
      injection h with h1 h2
      obtain ⟨hxs, huv⟩ := ih ys2 u v
        (fun c hc => hx c (List.mem_cons_of_mem _ hc))
        (fun c hc => hy c (List.mem_cons_of_mem _ hc)) hu hv h2
      exact ⟨by rw [h1, hxs], huv⟩

theorem extFromUrl_mem (u : String) :
    extFromUrl u ∈ ([".jpeg", ".jpg", ".png", ".webp"] : List String) := by
  simp only [extFromUrl]
  split
  · decide
  · split
    · decide
    · split
      · decide
      · split
        · decide
        · decide

theorem extFromUrl_dotted (u : String) :
    ∃ tl, (extFromUrl u).data = '.' :: tl := by
  have h := extFromUrl_mem u
  simp only [List.mem_cons, List.not_mem_nil, or_false] at h
  rcases h with h | h | h | h <;> rw [h]
  · exact ⟨['j', 'p', 'e', 'g'], rfl⟩
  · exact ⟨['j', 'p', 'g'], rfl⟩
  · exact ⟨['p', 'n', 'g'], rfl⟩
  · exact ⟨['w', 'e', 'b', 'p'], rfl⟩

theorem targetOf_seq (cat : String) (idx : Nat) (img : String) :
    (targetOf cat idx img).1.seq = idx := by
  simp only [targetOf]
  split <;> rfl

theorem targetOf_branches (cat : String) (idx : Nat) (img : String) :
    ((targetOf cat idx img).1.synthetic = false ∧ (targetOf cat idx img).2 = idx) ∨
      ((targetOf cat idx img).1.synthetic = true ∧
        (targetOf cat idx img).2 = idx + 1) := by
  simp only [targetOf]
  split
  · exact Or.inl ⟨rfl, rfl⟩
  · exact Or.inr ⟨rfl, rfl⟩

theorem targetOf_dest (cat : String) (idx : Nat) (img : String) :
    (targetOf cat idx img).1.dest =
      categoryFolder cat ++ "/" ++ (targetOf cat idx img).1.fileName := by
  simp only [targetOf]
  split <;> rfl

theorem targetOf_synth_fileName (cat : String) (idx : Nat) (img : String)
    (h : (targetOf cat idx img).1.synthetic = true) :
    (targetOf cat idx img).1.fileName =
      safeFileName cat ++ "_" ++ padStart3 idx ++ extFromUrl img := by
  cases hc : strContains (safeFileName (pathBasename (queryStrip img))) '.' with
  | false =>
    simp only [targetOf, hc] at h ⊢
    rfl
  | true =>
    simp only [targetOf, hc] at h
    exact absurd (show false = true from h) (by decide)

theorem destPlan_seq_ge :
    ∀ (imgs : List String) (cat : String) (idx : Nat) (t : Target),
      t ∈ destPlan cat idx imgs → idx ≤ t.seq := by
  intro imgs
  induction imgs with
  | nil => intro cat idx t ht; cases ht
  | cons img rest ih =>
    intro cat idx t ht
    rcases List.mem_cons.mp ht with rfl | ht
    · rw [targetOf_seq]
    · have h2 := ih cat (targetOf cat idx img).2 t ht
      rcases targetOf_branches cat idx img with ⟨_, he⟩ | ⟨_, he⟩ <;> omega

theorem destPlan_dest_structure :
    ∀ (imgs : List String) (cat : String) (idx : Nat) (t : Target),
      t ∈ destPlan cat idx imgs →
      t.dest = categoryFolder cat ++ "/" ++ t.fileName := by
  intro imgs
  induction imgs with
  | nil => intro cat idx t ht; cases ht
  | cons img rest ih =>
    intro cat idx t ht
    rcases List.mem_cons.mp ht with rfl | ht
    · exact targetOf_dest cat idx img
    · exact ih cat _ t ht

theorem destPlan_synth_fileName :
    ∀ (imgs : List String) (cat : String) (idx : Nat) (t : Target),
      t ∈ destPlan cat idx imgs → t.synthetic = true →
      ∃ e : String, t.fileName = safeFileName cat ++ "_" ++ padStart3 t.seq ++ e ∧
        ∃ tl, e.data = '.' :: tl := by
  intro imgs
  induction imgs with
  | nil => intro cat idx t ht; cases ht
  | cons img rest ih =>
    intro cat idx t ht hsy
    rcases List.mem_cons.mp ht with rfl | ht
    · refine ⟨extFromUrl img, ?_, extFromUrl_dotted img⟩
      rw [targetOf_seq]
      exact targetOf_synth_fileName cat idx img hsy
    · exact ih cat _ t ht hsy

theorem destPlan_synth_increasing :
    ∀ (imgs : List String) (cat : String) (idx : Nat),
      (destPlan cat idx imgs).Pairwise
        (fun t1 t2 => t1.synthetic = true → t2.synthetic = true →
          t1.seq < t2.seq) := by
  intro imgs
  induction imgs with
  | nil => intro cat idx; exact List.Pairwise.nil
  | cons img rest ih =>
    intro cat idx
    show List.Pairwise _
      ((targetOf cat idx img).1 :: destPlan cat (targetOf cat idx img).2 rest)
    refine List.pairwise_cons.mpr ⟨?_, ih cat _⟩
    intro t2 ht2 h1 h2
    have hseq := targetOf_seq cat idx img
    have hsnd : (targetOf cat idx img).2 = idx + 1 := by
      rcases targetOf_branches cat idx img with ⟨hs, _⟩ | ⟨_, he⟩
      · rw [h1] at hs
        cases hs
      · exact he
    have hge := destPlan_seq_ge rest cat _ t2 ht2
    omega

theorem fileName_eq_of_dest_eq {cat : String} {t1 t2 : Target}
    (h1 : t1.dest = categoryFolder cat ++ "/" ++ t1.fileName)
    (h2 : t2.dest = categoryFolder cat ++ "/" ++ t2.fileName)
    (h : t1.dest = t2.dest) : t1.fileName = t2.fileName := by
  rw [h1, h2] at h
  have hd : (categoryFolder cat ++ "/").data ++ t1.fileName.data =
      (categoryFolder cat ++ "/").data ++ t2.fileName.data := by
    have := congrArg String.data h
    rwa [strAppend_data, strAppend_data] at this
  exact strExt (List.append_cancel_left hd)

theorem synth_seq_eq_of_fileName_eq {cat : String} {t1 t2 : Target}
    (e1 e2 : String)
    (hf1 : t1.fileName = safeFileName cat ++ "_" ++ padStart3 t1.seq ++ e1)
    (hf2 : t2.fileName = safeFileName cat ++ "_" ++ padStart3 t2.seq ++ e2)
    (hd1 : ∃ tl, e1.data = '.' :: tl) (hd2 : ∃ tl, e2.data = '.' :: tl)
    (h : t1.fileName = t2.fileName) : t1.seq = t2.seq := by
  rw [hf1, hf2] at h
  have hdata := congrArg String.data h
  simp only [strAppend_data, List.append_assoc] at hdata
  have h1 := List.append_cancel_left hdata
  have h2 := List.append_cancel_left h1
  obtain ⟨hpad, _⟩ := append_digits_dot_inj _ _ _ _
    (padStart3_chars t1.seq) (padStart3_chars t2.seq) hd1 hd2 h2
  exact padStart3_inj (strExt hpad)

/-- C2 counterexample: two distinct source URLs within one category that
share the sanitized basename `x.jpg` are assigned the same destination
file, and neither name comes from the synthetic-sequence fallback — so
destination paths do collide across different source URLs. -/
theorem destPlan_basename_collision :
    (destPlan "Berceaux" 1
        ["https://www.botech.ma/images/produits/a/x.jpg",
          "https://www.botech.ma/images/produits/b/x.jpg"]).map Target.dest =
      ["botech_images/Berceaux/x.jpg", "botech_images/Berceaux/x.jpg"] ∧
      (destPlan "Berceaux" 1
        ["https://www.botech.ma/images/produits/a/x.jpg",
          "https://www.botech.ma/images/produits/b/x.jpg"]).map Target.synthetic =
        [false, false] ∧
      ("https://www.botech.ma/images/produits/a/x.jpg" : String) ≠
        "https://www.botech.ma/images/produits/b/x.jpg" :=
  ⟨by decide, by decide, by decide⟩

/-- C2 (amended): within one category run, destination paths derived by
the synthetic-sequence fallback never collide with each other (the
counter is strictly incremented, and distinct zero-padded counters give
distinct names); destination collisions between two targets are always
filename collisions — in particular two basename-derived targets collide
exactly when their sanitized query-stripped basenames coincide, which
distinct source URLs can produce. -/
theorem destPlan_collision_characterization
    (categoryName : String) (images : List String) :
    ((destPlan categoryName 1 images).Pairwise (fun t1 t2 =>
        t1.synthetic = true → t2.synthetic = true → t1.dest ≠ t2.dest)) ∧
      (∀ t1 ∈ destPlan categoryName 1 images,
        ∀ t2 ∈ destPlan categoryName 1 images,
        t1.dest = t2.dest → t1.fileName = t2.fileName) := by
  constructor
  · refine (destPlan_synth_increasing images categoryName 1).imp_of_mem ?_
    intro t1 t2 h1m h2m hrel ht1 ht2 hdest
    have hlt := hrel ht1 ht2
    have hfn : t1.fileName = t2.fileName :=
      fileName_eq_of_dest_eq
        (destPlan_dest_structure images categoryName 1 t1 h1m)
        (destPlan_dest_structure images categoryName 1 t2 h2m) hdest
    obtain ⟨e1, hf1, hd1⟩ :=
      destPlan_synth_fileName images categoryName 1 t1 h1m ht1
    obtain ⟨e2, hf2, hd2⟩ :=
      destPlan_synth_fileName images categoryName 1 t2 h2m ht2
    have := synth_seq_eq_of_fileName_eq e1 e2 hf1 hf2 hd1 hd2 hfn
    omega
  · intro t1 h1m t2 h2m hdest
    exact fileName_eq_of_dest_eq
      (destPlan_dest_structure images categoryName 1 t1 h1m)
      (destPlan_dest_structure images categoryName 1 t2 h2m) hdest

/-- Evaluation of C2 (amended) on two extension-less URLs: both fall to
the synthetic fallback and receive distinct destination paths. -/
theorem destPlan_collision_characterization_witness :
    ((destPlan "Cat" 1
        ["https://www.botech.ma/images/produits/photo",
          "https://www.botech.ma/images/produits/photo2"]).get
      ⟨0, by decide⟩).dest ≠
      ((destPlan "Cat" 1
        ["https://www.botech.ma/images/produits/photo",
          "https://www.botech.ma/images/produits/photo2"]).get
        ⟨1, by decide⟩).dest := by
  have h := (destPlan_collision_characterization "Cat"
    ["https://www.botech.ma/images/produits/photo",
      "https://www.botech.ma/images/produits/photo2"]).1
  have h2 := (List.pairwise_cons.mp h).1
  exact h2 _ (List.mem_cons_self _ _) (by decide) (by decide)

end Scraper
